import Mathlib

/-!
# Verification of the recurrence engine of the `final-go` task scheduler

This file gives a shallow embedding, in Lean 4, of the recurrence engine of
the repository (package `utils`: `NextDate` and its helpers), together with
theorems settling the specification's claims about it.

Modelling conventions:
* Go strings are embedded as `List Char`; `strings.Split` is `List.splitOn`,
  which has the same semantics (separators split everywhere, empty fields and
  the empty string are kept).
* `time.Time` values are embedded as zone-less calendar dates `Date`
  (the engine only ever builds midnight times and compares them);
  `time.Date`'s normalisation of out-of-range month/day arguments is
  `goDate`, and `AddDate` is `addDate`.
* The engine's `for` loops have no intrinsic bound, so each loop takes an
  explicit fuel argument and returns `none` when the fuel is exhausted;
  `NextDate fuel … = none` for every `fuel` is the embedding of
  non-termination.
* `(s, error)` results are embedded as `NDResult`: `NDResult.err` is
  `("", errForamt)` and `NDResult.ok s` is `(s, nil)`.
-/

/-- A zone-less calendar date, the embedding of the midnight `time.Time`
values the engine works with.  All dates built by the engine are normalised
(month in `[1,12]`, day in `[1, daysInMonth]`). -/
structure Date where
  year : Int
  month : Int
  day : Int
deriving DecidableEq

/-- Leap-year test of the proleptic Gregorian calendar, as in Go's
`time` package: `year%4 == 0 && (year%100 != 0 || year%400 == 0)`. -/
def goIsLeap (y : Int) : Bool :=
  y % 4 == 0 && (y % 100 != 0 || y % 400 == 0)

/-- Number of days of month `m` of year `y` (the table used by Go's
`time` package; the final branch is only reached for month 12, months are
normalised into `[1,12]` before this is consulted). -/
def daysInMonth (y m : Int) : Int :=
  if m = 1 then 31
  else if m = 2 then (if goIsLeap y then 29 else 28)
  else if m = 3 then 31
  else if m = 4 then 30
  else if m = 5 then 31
  else if m = 6 then 30
  else if m = 7 then 31
  else if m = 8 then 31
  else if m = 9 then 30
  else if m = 10 then 31
  else if m = 11 then 30
  else 31

/-- Roll a too-large day count forward over month boundaries: the day part of
`time.Date`'s normalisation when the day argument exceeds the month length.
The fuel is always sufficient (each step removes at least 28 days), so the
out-of-fuel branch is unreachable for the fuel chosen by `goDate`. -/
def rollDownF : Nat → Int → Int → Int → Date
  | 0, y, m, d => ⟨y, m, d⟩
  | f + 1, y, m, d =>
    let len := daysInMonth y m
    if d ≤ len then ⟨y, m, d⟩
    else if m = 12 then rollDownF f (y + 1) 1 (d - len)
    else rollDownF f y (m + 1) (d - len)

/-- Roll a non-positive day count backward over month boundaries: the day
part of `time.Date`'s normalisation when the day argument is below 1 (for
example day 0, used by `lastDayOfMonth`).  The fuel chosen by `goDate` is
always sufficient. -/
def rollUpF : Nat → Int → Int → Int → Date
  | 0, y, m, d => ⟨y, m, d⟩
  | f + 1, y, m, d =>
    let py := if m = 1 then y - 1 else y
    let pm := if m = 1 then (12 : Int) else m - 1
    let len := daysInMonth py pm
    if 1 ≤ d + len then ⟨py, pm, d + len⟩
    else rollUpF f py pm (d + len)

/-- `time.Date(y, m, d, 0, 0, 0, 0, loc)`: normalises the month into
`[1,12]` (floored division, as Go's `norm`), then rolls an out-of-range day
across month boundaries.  On an already-valid date it is the identity. -/
def goDate (y m d : Int) : Date :=
  let y' := y + (m - 1) / 12
  let m' := (m - 1) % 12 + 1
  if d < 1 then rollUpF (1 - d).toNat y' m' d else rollDownF d.toNat y' m' d

/-- `t.AddDate(years, months, days)`: Go adds the offsets to the civil
components and renormalises with `time.Date`. -/
def addDate (t : Date) (years months days : Int) : Date :=
  goDate (t.year + years) (t.month + months) (t.day + days)

/-- `date.After(now)` on midnight times: strict lexicographic comparison of
the calendar components. -/
def dateAfter (date now : Date) : Bool :=
  decide (now.year < date.year ∨
    (now.year = date.year ∧ (now.month < date.month ∨
      (now.month = date.month ∧ now.day < date.day))))

/-- `afterNow` of the source: `date.After(now)`. -/
def afterNow (date now : Date) : Bool :=
  dateAfter date now

/-- `lastDayOfMonth` of the source:
`time.Date(t.Year(), t.Month()+1, 0, …)`, day 0 of the next month. -/
def lastDayOfMonth (t : Date) : Date :=
  goDate t.year (t.month + 1) 0

/-- Days before January 1st of year `y`, counting from year 1 of the
proleptic Gregorian calendar (rata die minus one). -/
def daysBeforeYear (y : Int) : Int :=
  365 * (y - 1) + (y - 1) / 4 - (y - 1) / 100 + (y - 1) / 400

/-- Days of year `y` that precede month `m`. -/
def daysBeforeMonth (y m : Int) : Int :=
  let leap : Int := if goIsLeap y then 1 else 0
  if m = 1 then 0
  else if m = 2 then 31
  else if m = 3 then 59 + leap
  else if m = 4 then 90 + leap
  else if m = 5 then 120 + leap
  else if m = 6 then 151 + leap
  else if m = 7 then 181 + leap
  else if m = 8 then 212 + leap
  else if m = 9 then 243 + leap
  else if m = 10 then 273 + leap
  else if m = 11 then 304 + leap
  else 334 + leap

/-- Absolute day number of a (normalised) date; day 0 is 0001-01-01, which
is a Monday. -/
def toDays (t : Date) : Int :=
  daysBeforeYear t.year + daysBeforeMonth t.year t.month + t.day - 1

/-- `t.Weekday()` as Go numbers it: 0 = Sunday … 6 = Saturday. -/
def weekdayGo (t : Date) : Int :=
  (toDays t + 1) % 7

/-- The weekday number the weekly loop works with: `int(date.Weekday())`
with `0` remapped to `7`, so 1 = Monday … 7 = Sunday. -/
def goWeekdayMapped (t : Date) : Int :=
  let w := weekdayGo t
  if w = 0 then 7 else w

/-- The character of a decimal digit. -/
def digitChar (n : Nat) : Char :=
  Char.ofNat ('0'.toNat + n)

/-- Decimal digits of a natural number (24 digit positions are ample for
every number the engine can format). -/
def natDigitsAux : Nat → Nat → List Char → List Char
  | 0, _, acc => acc
  | _ + 1, 0, acc => acc
  | f + 1, n, acc => natDigitsAux f (n / 10) (digitChar (n % 10) :: acc)

/-- Decimal representation of a natural number. -/
def natDigits (n : Nat) : List Char :=
  if n = 0 then ['0'] else natDigitsAux 24 n []

/-- Zero-pad a decimal representation to a given width. -/
def padWidth (w : Nat) (n : Nat) : List Char :=
  let ds := natDigits n
  List.replicate (w - ds.length) '0' ++ ds

/-- `date.Format("20060102")`: the `YYYYMMDD` rendering of a date. -/
def formatDate (t : Date) : List Char :=
  padWidth 4 t.year.toNat ++ padWidth 2 t.month.toNat ++ padWidth 2 t.day.toNat

/-- Whether a character is a decimal digit. -/
def isDigitChar (c : Char) : Bool :=
  '0' ≤ c && c ≤ '9'

/-- Value of a run of decimal digits; `none` if a non-digit appears. -/
def digitsVal : List Char → Nat → Option Nat
  | [], acc => some acc
  | c :: r, acc =>
    if isDigitChar c then digitsVal r (acc * 10 + (c.toNat - '0'.toNat))
    else none

/-- `strconv.Atoi`: an optional sign followed by at least one decimal
digit (the engine's values are far below the overflow range). -/
def atoi (s : List Char) : Option Int :=
  match s with
  | [] => none
  | '-' :: r => if r = [] then none else (digitsVal r 0).map (fun n => -(n : Int))
  | '+' :: r => if r = [] then none else (digitsVal r 0).map (fun n => (n : Int))
  | _ => (digitsVal s 0).map (fun n => (n : Int))

/-- `time.Parse("20060102", s)`: exactly eight digits, the month in
`[1,12]` and the day in range for that month and year. -/
def parseDate (s : List Char) : Option Date :=
  if s.length = 8 then
    match digitsVal (s.take 4) 0, digitsVal ((s.drop 4).take 2) 0,
        digitsVal (s.drop 6) 0 with
    | some y, some m, some d =>
      if 1 ≤ (m : Int) ∧ (m : Int) ≤ 12 ∧ 1 ≤ (d : Int) ∧
          (d : Int) ≤ daysInMonth (y : Int) (m : Int) then
        some ⟨(y : Int), (m : Int), (d : Int)⟩
      else none
    | _, _, _ => none
  else none

/-- Validation bound of the source: maximal interval of a `"d N"` rule. -/
def max_day : Int := 400

/-- Validation bound of the source: largest weekday number. -/
def max_wday : Int := 7

/-- Validation bound of the source: largest month number. -/
def max_month : Int := 12

/-- `parseWeek` of the source: a comma-separated weekday list, each value in
`[1,7]`; the Go `map[int]bool` is embedded as the list of its keys (queried
with `List.contains`, duplicates are harmless). -/
def parseWeek (s : List Char) : Option (List Int) :=
  let rec go : List (List Char) → Option (List Int)
    | [] => some []
    | dayStr :: rest =>
      match atoi dayStr with
      | none => none
      | some day =>
        if day < 1 ∨ day > max_wday then none
        else match go rest with
          | none => none
          | some tl => some (day :: tl)
  go (List.splitOn ',' s)

/-- `parseMonth` of the source: an absent month token means every month;
otherwise a comma-separated list of values in `[1,12]`.  As with
`parseWeek`, the Go map is embedded as its key list. -/
def parseMonth (months : List (List Char)) : Option (List Int) :=
  match months with
  | [] => some [1, 2, 3, 4, 5, 6, 7, 8, 9, 10, 11, 12]
  | m0 :: _ =>
    let rec go : List (List Char) → Option (List Int)
      | [] => some []
      | monthStr :: rest =>
        match atoi monthStr with
        | none => none
        | some month =>
          if month < 1 ∨ month > max_month then none
          else match go rest with
            | none => none
            | some tl => some (month :: tl)
    go (List.splitOn ',' m0)

/-- `stringsToInts` of the source: every token must parse as an integer in
`[-2, 32]` other than 0 (the bound in the code is `num > 32`, not
`num > 31`). -/
def stringsToInts : List (List Char) → Option (List Int)
  | [] => some []
  | s :: rest =>
    match atoi s with
    | none => none
    | some num =>
      if num < -2 ∨ num > 32 ∨ num = 0 then none
      else match stringsToInts rest with
        | none => none
        | some tl => some (num :: tl)

/-- The ascending sort `slices.Sort` performs (on integers any correct sort
is extensionally the same function). -/
def sortInts (xs : List Int) : List Int :=
  List.insertionSort (· ≤ ·) xs

/-- `arrangeSpecialDays` of the source: one pass over the list splits it
into regular days, `-2`s and `-1`s (each in encounter order), which are then
concatenated in that order. -/
def arrangeSpecialDays (days : List Int) : List Int :=
  let grps := days.foldl
    (fun (acc : List Int × List Int × List Int) day =>
      if day = -2 then (acc.1, acc.2.1 ++ [day], acc.2.2)
      else if day = -1 then (acc.1, acc.2.1, acc.2.2 ++ [day])
      else (acc.1 ++ [day], acc.2.1, acc.2.2))
    ([], [], [])
  grps.1 ++ grps.2.1 ++ grps.2.2

/-- `parseDays` of the source: split on commas, validate with
`stringsToInts`, sort ascending, then move the special days to the end. -/
def parseDays (s : List Char) : Option (List Int) :=
  match stringsToInts (List.splitOn ',' s) with
  | none => none
  | some dayInt => some (arrangeSpecialDays (sortInts dayInt))

/-- Result of `NextDate`: `err` is `("", errForamt)`, `ok s` is `(s, nil)`
(`ok []` is the empty marker of a single-occurrence task). -/
inductive NDResult where
  | err : NDResult
  | ok : List Char → NDResult
deriving DecidableEq

/-- The inner day scan of `findMonthDay`: try each day value of the
pre-ordered list against the month of `date`; `-1` is the month's last day,
`-2` the day before it, a regular day is skipped when the month is too
short; the first target strictly after `now` is returned. -/
def scanDays (now date : Date) : List Int → Option Date
  | [] => none
  | day :: rest =>
    if day = -1 then
      let target := lastDayOfMonth date
      if afterNow target now then some target else scanDays now date rest
    else if day = -2 then
      let target := addDate (lastDayOfMonth date) 0 0 (-1)
      if afterNow target now then some target else scanDays now date rest
    else
      let lastDay := (lastDayOfMonth date).day
      if day > lastDay then scanDays now date rest
      else
        let target := goDate date.year date.month day
        if afterNow target now then some target else scanDays now date rest

/-- The month iteration of `findMonthDay`: skip months missing from the
month set, scan the days of admissible months, advance month by month. -/
def monthLoop : Nat → Date → List Int → List Int → Date → Option NDResult
  | 0, _, _, _, _ => none
  | f + 1, now, monthMap, days, date =>
    if monthMap.contains date.month then
      match scanDays now date days with
      | some target => some (.ok (formatDate target))
      | none => monthLoop f now monthMap days (addDate date 0 1 0)
    else monthLoop f now monthMap days (addDate date 0 1 0)

/-- `findMonthDay` of the source: parse the month filter and the day list;
if `start` is not strictly after `now`, fast-forward to the first day of the
month after `start`'s month; then run the month scan. -/
def findMonthDay (fuel : Nat) (now date : Date) (daysStr : List Char)
    (months : List (List Char)) : Option NDResult :=
  match parseMonth months with
  | none => some .err
  | some monthMap =>
    match parseDays daysStr with
    | none => some .err
    | some days =>
      let date' := if afterNow date now then date
        else addDate (goDate date.year date.month 1) 0 1 0
      monthLoop fuel now monthMap days date'

/-- The `"y"` loop of `NextDate`: add one calendar year, return as soon as
the running date is strictly after `now`. -/
def yearlyLoop : Nat → Date → Date → Option NDResult
  | 0, _, _ => none
  | f + 1, now, date =>
    let d := addDate date 1 0 0
    if afterNow d now then some (.ok (formatDate d)) else yearlyLoop f now d

/-- The `"d N"` loop of `NextDate`: add `interval` days, return as soon as
the running date is strictly after `now`. -/
def dLoop : Nat → Date → Int → Date → Option NDResult
  | 0, _, _, _ => none
  | f + 1, now, interval, date =>
    let d := addDate date 0 0 interval
    if afterNow d now then some (.ok (formatDate d)) else dLoop f now interval d

/-- The `"w"` loop of `NextDate`: advance one day at a time, return the
first date whose mapped weekday is in the set and which is strictly after
`now`. -/
def wLoop : Nat → Date → List Int → Date → Option NDResult
  | 0, _, _, _ => none
  | f + 1, now, dmap, date =>
    let d := addDate date 0 0 1
    if dmap.contains (goWeekdayMapped d) && afterNow d now then
      some (.ok (formatDate d))
    else wLoop f now dmap d

/-- The dispatch of `NextDate` on the whitespace-split rule tokens: `"y"`
needs nothing further; `"d"` needs an interval in `[0, max_day]` (the code's
check admits 0); `"w"` needs a weekday list; `"m"` needs a day list and
passes every later token to `findMonthDay`; anything else is a format
error. -/
def nextDateRule (fuel : Nat) (now date : Date) (rule : List (List Char)) :
    Option NDResult :=
  match rule with
  | [] => some .err
  | k :: rest =>
    if k = ['y'] then yearlyLoop fuel now date
    else if k = ['d'] then
      match rest with
      | [] => some .err
      | nStr :: _ =>
        match atoi nStr with
        | none => some .err
        | some interval =>
          if interval < 0 ∨ interval > max_day then some .err
          else dLoop fuel now interval date
    else if k = ['w'] then
      match rest with
      | [] => some .err
      | dStr :: _ =>
        match parseWeek dStr with
        | none => some .err
        | some dmap => wLoop fuel now dmap date
    else if k = ['m'] then
      match rest with
      | [] => some .err
      | dStr :: months => findMonthDay fuel now date dStr months
    else some .err

/-- `NextDate(now, dstart, repeat)` of the source.  An empty repeat rule is
the empty marker with no error and no look at `dstart`; otherwise `dstart`
must parse as a `YYYYMMDD` date and the split rule is dispatched on its
first token.  `none` means the fuel ran out, i.e. the source loops
forever. -/
def NextDate (fuel : Nat) (now : Date) (dstart rep : List Char) :
    Option NDResult :=
  if rep = [] then some (.ok [])
  else
    match parseDate dstart with
    | none => some .err
    | some date => nextDateRule fuel now date (List.splitOn ' ' rep)

/-- A date whose components are in range, as produced by `parseDate` and by
normalisation. -/
def ValidDate (t : Date) : Prop :=
  1 ≤ t.month ∧ t.month ≤ 12 ∧ 1 ≤ t.day ∧ t.day ≤ daysInMonth t.year t.month

/-- `NextDate` terminates on these inputs and returns `r` (some fuel — hence,
by monotonicity, every larger fuel — makes the loops finish with `r`). -/
def Returns (now : Date) (dstart rep : List Char) (r : NDResult) : Prop :=
  ∃ fuel, NextDate fuel now dstart rep = some r

/-- `k` applications of `AddDate(1, 0, 0)`, the iterate the yearly loop
steps through. -/
def addYears : Nat → Date → Date
  | 0, d => d
  | k + 1, d => addYears k (addDate d 1 0 0)

/-- `k` applications of `AddDate(0, 0, 1)`, the iterate the weekly loop
steps through. -/
def addDaysN : Nat → Date → Date
  | 0, d => d
  | k + 1, d => addDaysN k (addDate d 0 0 1)

/-- The ordering the specification describes for `Monthly.days`: the values
sorted ascending, then every `-2` and every `-1` moved after all the
positive day numbers, the `-2`s before the `-1`s. -/
def specDaysOrder (vals : List Int) : List Int :=
  let s := sortInts vals
  s.filter (fun d => decide (0 < d)) ++ s.filter (fun d => d == -2)
    ++ s.filter (fun d => d == -1)

/-! ## Basic facts about the date arithmetic -/

theorem rollDownF_stop (f : Nat) (y m d : Int) (h : d ≤ daysInMonth y m) :
    rollDownF f y m d = ⟨y, m, d⟩ := by
  cases f with
  | zero => rfl
  | succ f => simp only [rollDownF, h, if_pos]

theorem goDate_valid_id (y m d : Int) (h1 : 1 ≤ m) (h2 : m ≤ 12)
    (h3 : 1 ≤ d) (h4 : d ≤ daysInMonth y m) : goDate y m d = ⟨y, m, d⟩ := by
  have e1 : (m - 1) % 12 = m - 1 := by omega
  have e2 : (m - 1) / 12 = 0 := by omega
  unfold goDate
  rw [e1, e2]
  have e3 : y + 0 = y := by ring
  have e4 : m - 1 + 1 = m := by ring
  rw [e3, e4, if_neg (by omega : ¬ d < 1)]
  exact rollDownF_stop _ y m d h4

theorem parseDate_valid (s : List Char) (t : Date)
    (h : parseDate s = some t) : ValidDate t := by
  unfold parseDate at h
  split at h
  · split at h
    · split at h
      · rename_i y m d _ hrange
        obtain ⟨q1, q2, q3, q4⟩ := hrange
        injection h with h
        subst h
        exact ⟨q1, q2, q3, q4⟩
      · exact absurd h (by simp)
    · exact absurd h (by simp)
  · exact absurd h (by simp)

theorem addDate_zero (t : Date) (h : ValidDate t) : addDate t 0 0 0 = t := by
  obtain ⟨h1, h2, h3, h4⟩ := h
  unfold addDate
  have e1 : t.year + 0 = t.year := by ring
  have e2 : t.month + 0 = t.month := by ring
  have e3 : t.day + 0 = t.day := by ring
  rw [e1, e2, e3, goDate_valid_id t.year t.month t.day h1 h2 h3 h4]

/-! ## Every returned date has passed the strict `afterNow` check -/

theorem yearlyLoop_ok (f : Nat) (now date : Date) (s : List Char)
    (h : yearlyLoop f now date = some (.ok s)) :
    ∃ d, s = formatDate d ∧ afterNow d now = true := by
  induction f generalizing date with
  | zero => exact absurd h (by simp [yearlyLoop])
  | succ f ih =>
    unfold yearlyLoop at h
    by_cases hc : afterNow (addDate date 1 0 0) now = true
    · rw [if_pos hc] at h
      injection h with h
      injection h with h
      exact ⟨addDate date 1 0 0, h.symm, hc⟩
    · rw [if_neg hc] at h
      exact ih _ h

theorem dLoop_ok (f : Nat) (now : Date) (interval : Int) (date : Date)
    (s : List Char) (h : dLoop f now interval date = some (.ok s)) :
    ∃ d, s = formatDate d ∧ afterNow d now = true := by
  induction f generalizing date with
  | zero => exact absurd h (by simp [dLoop])
  | succ f ih =>
    unfold dLoop at h
    by_cases hc : afterNow (addDate date 0 0 interval) now = true
    · rw [if_pos hc] at h
      injection h with h
      injection h with h
      exact ⟨addDate date 0 0 interval, h.symm, hc⟩
    · rw [if_neg hc] at h
      exact ih _ h

theorem wLoop_ok (f : Nat) (now : Date) (dmap : List Int) (date : Date)
    (s : List Char) (h : wLoop f now dmap date = some (.ok s)) :
    ∃ d, s = formatDate d ∧ afterNow d now = true := by
  induction f generalizing date with
  | zero => exact absurd h (by simp [wLoop])
  | succ f ih =>
    unfold wLoop at h
    by_cases hc : (dmap.contains (goWeekdayMapped (addDate date 0 0 1)) &&
        afterNow (addDate date 0 0 1) now) = true
    · rw [if_pos hc] at h
      injection h with h
      injection h with h
      exact ⟨addDate date 0 0 1, h.symm, (Bool.and_eq_true _ _ |>.mp hc).2⟩
    · rw [if_neg hc] at h
      exact ih _ h

theorem scanDays_after (now date : Date) (days : List Int) (t : Date)
    (h : scanDays now date days = some t) : afterNow t now = true := by
  induction days with
  | nil => exact absurd h (by simp [scanDays])
  | cons day rest ih =>
    unfold scanDays at h
    split at h
    · by_cases hc : afterNow (lastDayOfMonth date) now = true
      · rw [if_pos hc] at h
        injection h with h
        exact h ▸ hc
      · rw [if_neg hc] at h
        exact ih h
    · split at h
      · by_cases hc : afterNow (addDate (lastDayOfMonth date) 0 0 (-1)) now = true
        · rw [if_pos hc] at h
          injection h with h
          exact h ▸ hc
        · rw [if_neg hc] at h
          exact ih h
      · dsimp only at h
        by_cases hgt : day > (lastDayOfMonth date).day
        · rw [if_pos hgt] at h
          exact ih h
        · rw [if_neg hgt] at h
          by_cases hc : afterNow (goDate date.year date.month day) now = true
          · rw [if_pos hc] at h
            injection h with h
            exact h ▸ hc
          · rw [if_neg hc] at h
            exact ih h

theorem monthLoop_ok (f : Nat) (now : Date) (monthMap days : List Int)
    (date : Date) (s : List Char)
    (h : monthLoop f now monthMap days date = some (.ok s)) :
    ∃ d, s = formatDate d ∧ afterNow d now = true := by
  induction f generalizing date with
  | zero => exact absurd h (by simp [monthLoop])
  | succ f ih =>
    unfold monthLoop at h
    split at h
    · split at h
      · rename_i target hscan
        injection h with h
        injection h with h
        exact ⟨target, h.symm, scanDays_after now date days target hscan⟩
      · exact ih _ h
    · exact ih _ h

theorem findMonthDay_ok (fuel : Nat) (now date : Date) (daysStr : List Char)
    (months : List (List Char)) (s : List Char)
    (h : findMonthDay fuel now date daysStr months = some (.ok s)) :
    ∃ d, s = formatDate d ∧ afterNow d now = true := by
  unfold findMonthDay at h
  split at h
  · exact absurd h (by simp)
  · split at h
    · exact absurd h (by simp)
    · exact monthLoop_ok fuel now _ _ _ s h

theorem nextDateRule_ok (fuel : Nat) (now date : Date)
    (rule : List (List Char)) (s : List Char)
    (h : nextDateRule fuel now date rule = some (.ok s)) :
    ∃ d, s = formatDate d ∧ afterNow d now = true := by
  unfold nextDateRule at h
  split at h
  · exact absurd h (by simp)
  · split_ifs at h
    · exact yearlyLoop_ok fuel now date s h
    · split at h
      · exact absurd h (by simp)
      · split at h
        · exact absurd h (by simp)
        · split at h
          · exact absurd h (by simp)
          · exact dLoop_ok fuel now _ date s h
    · split at h
      · exact absurd h (by simp)
      · split at h
        · exact absurd h (by simp)
        · exact wLoop_ok fuel now _ date s h
    · split at h
      · exact absurd h (by simp)
      · exact findMonthDay_ok fuel now date _ _ s h
    · exact absurd h (by simp)

/-! ## Fuel monotonicity: a result obtained with some fuel is stable under
more fuel, so `Returns` describes a deterministic engine -/

theorem yearlyLoop_mono (f : Nat) : ∀ (f' : Nat) (now date : Date)
    (r : NDResult), f ≤ f' → yearlyLoop f now date = some r →
    yearlyLoop f' now date = some r := by
  induction f with
  | zero => intro f' now date r _ h; exact absurd h (by simp [yearlyLoop])
  | succ f ih =>
    intro f' now date r hle h
    obtain ⟨f'', rfl⟩ : ∃ f'', f' = f'' + 1 := ⟨f' - 1, by omega⟩
    unfold yearlyLoop at h ⊢
    by_cases hc : afterNow (addDate date 1 0 0) now = true
    · rw [if_pos hc] at h ⊢
      exact h
    · rw [if_neg hc] at h ⊢
      exact ih f'' now _ r (by omega) h

theorem dLoop_mono (f : Nat) : ∀ (f' : Nat) (now : Date) (interval : Int)
    (date : Date) (r : NDResult), f ≤ f' → dLoop f now interval date = some r →
    dLoop f' now interval date = some r := by
  induction f with
  | zero => intro f' now interval date r _ h; exact absurd h (by simp [dLoop])
  | succ f ih =>
    intro f' now interval date r hle h
    obtain ⟨f'', rfl⟩ : ∃ f'', f' = f'' + 1 := ⟨f' - 1, by omega⟩
    unfold dLoop at h ⊢
    by_cases hc : afterNow (addDate date 0 0 interval) now = true
    · rw [if_pos hc] at h ⊢
      exact h
    · rw [if_neg hc] at h ⊢
      exact ih f'' now interval _ r (by omega) h

theorem wLoop_mono (f : Nat) : ∀ (f' : Nat) (now : Date) (dmap : List Int)
    (date : Date) (r : NDResult), f ≤ f' → wLoop f now dmap date = some r →
    wLoop f' now dmap date = some r := by
  induction f with
  | zero => intro f' now dmap date r _ h; exact absurd h (by simp [wLoop])
  | succ f ih =>
    intro f' now dmap date r hle h
    obtain ⟨f'', rfl⟩ : ∃ f'', f' = f'' + 1 := ⟨f' - 1, by omega⟩
    unfold wLoop at h ⊢
    by_cases hc : (dmap.contains (goWeekdayMapped (addDate date 0 0 1)) &&
        afterNow (addDate date 0 0 1) now) = true
    · rw [if_pos hc] at h ⊢
      exact h
    · rw [if_neg hc] at h ⊢
      exact ih f'' now dmap _ r (by omega) h

theorem monthLoop_mono (f : Nat) : ∀ (f' : Nat) (now : Date)
    (monthMap days : List Int) (date : Date) (r : NDResult), f ≤ f' →
    monthLoop f now monthMap days date = some r →
    monthLoop f' now monthMap days date = some r := by
  induction f with
  | zero =>
    intro f' now monthMap days date r _ h
    exact absurd h (by simp [monthLoop])
  | succ f ih =>
    intro f' now monthMap days date r hle h
    obtain ⟨f'', rfl⟩ : ∃ f'', f' = f'' + 1 := ⟨f' - 1, by omega⟩
    unfold monthLoop at h ⊢
    by_cases hc : monthMap.contains date.month = true
    · rw [if_pos hc] at h ⊢
      cases hs : scanDays now date days with
      | some target =>
        rw [hs] at h
        exact h
      | none =>
        rw [hs] at h
        exact ih f'' now monthMap days _ r (by omega) h
    · rw [if_neg hc] at h ⊢
      exact ih f'' now monthMap days _ r (by omega) h

theorem findMonthDay_mono (f f' : Nat) (now date : Date)
    (daysStr : List Char) (months : List (List Char)) (r : NDResult)
    (hle : f ≤ f') (h : findMonthDay f now date daysStr months = some r) :
    findMonthDay f' now date daysStr months = some r := by
  unfold findMonthDay at h ⊢
  split at h
  · exact h
  · split at h
    · exact h
    · exact monthLoop_mono f f' now _ _ _ r hle h

theorem nextDateRule_mono (f f' : Nat) (now date : Date)
    (rule : List (List Char)) (r : NDResult) (hle : f ≤ f')
    (h : nextDateRule f now date rule = some r) :
    nextDateRule f' now date rule = some r := by
  cases rule with
  | nil => exact h
  | cons k rest =>
    unfold nextDateRule at h ⊢
    dsimp only at h ⊢
    split_ifs at h ⊢
    · exact yearlyLoop_mono f f' now date r hle h
    · cases rest with
      | nil => exact h
      | cons nStr rest' =>
        dsimp only at h ⊢
        cases ha : atoi nStr with
        | none =>
          rw [ha] at h
          exact h
        | some interval =>
          rw [ha] at h
          dsimp only at h ⊢
          split_ifs at h ⊢
          · exact h
          · exact dLoop_mono f f' now interval date r hle h
    · cases rest with
      | nil => exact h
      | cons dStr rest' =>
        dsimp only at h ⊢
        cases hw : parseWeek dStr with
        | none =>
          rw [hw] at h
          exact h
        | some dmap =>
          rw [hw] at h
          exact wLoop_mono f f' now dmap date r hle h
    · cases rest with
      | nil => exact h
      | cons dStr months => exact findMonthDay_mono f f' now date dStr months r hle h
    · exact h

theorem NextDate_mono (f f' : Nat) (now : Date) (dstart rep : List Char)
    (r : NDResult) (hle : f ≤ f') (h : NextDate f now dstart rep = some r) :
    NextDate f' now dstart rep = some r := by
  unfold NextDate at h ⊢
  split_ifs at h ⊢
  · exact h
  · cases hp : parseDate dstart with
    | none =>
      rw [hp] at h
      exact h
    | some date =>
      rw [hp] at h
      exact nextDateRule_mono f f' now date _ r hle h

/-- The engine is deterministic: any two terminating runs on the same
inputs agree, so `Returns` relates each input to at most one result. -/
theorem NextDate_det (now : Date) (dstart rep : List Char) (r r' : NDResult)
    (h : Returns now dstart rep r) (h' : Returns now dstart rep r') :
    r = r' := by
  obtain ⟨f, hf⟩ := h
  obtain ⟨f', hf'⟩ := h'
  rcases le_total f f' with hle | hle
  · have h2 := NextDate_mono f f' now dstart rep r hle hf
    rw [h2] at hf'
    exact Option.some.inj hf'
  · have h2 := NextDate_mono f' f now dstart rep r' hle hf'
    rw [h2] at hf
    exact (Option.some.inj hf).symm

/-! ## Characterisation of the yearly and weekly loops: the result is the
first iterate that passes the check -/

theorem yearlyLoop_char (f : Nat) : ∀ (now date : Date) (s : List Char),
    yearlyLoop f now date = some (.ok s) →
    ∃ k, 1 ≤ k ∧ s = formatDate (addYears k date) ∧
      afterNow (addYears k date) now = true ∧
      ∀ j, 1 ≤ j → j < k → afterNow (addYears j date) now = false := by
  induction f with
  | zero => intro now date s h; exact absurd h (by simp [yearlyLoop])
  | succ f ih =>
    intro now date s h
    unfold yearlyLoop at h
    by_cases hc : afterNow (addDate date 1 0 0) now = true
    · rw [if_pos hc] at h
      injection h with h
      injection h with h
      refine ⟨1, le_refl 1, h.symm, hc, ?_⟩
      intro j hj1 hj2
      omega
    · rw [if_neg hc] at h
      obtain ⟨k, hk1, hs, hafter, hmin⟩ := ih now (addDate date 1 0 0) s h
      refine ⟨k + 1, by omega, hs, hafter, ?_⟩
      intro j hj1 hjk
      cases j with
      | zero => omega
      | succ j' =>
        cases j' with
        | zero =>
          simp only [Bool.not_eq_true] at hc
          exact hc
        | succ j'' => exact hmin (j'' + 1) (by omega) (by omega)

theorem wLoop_char (f : Nat) : ∀ (now : Date) (dmap : List Int) (date : Date)
    (s : List Char), wLoop f now dmap date = some (.ok s) →
    ∃ k, 1 ≤ k ∧ s = formatDate (addDaysN k date) ∧
      (dmap.contains (goWeekdayMapped (addDaysN k date)) &&
        afterNow (addDaysN k date) now) = true ∧
      ∀ j, 1 ≤ j → j < k →
        (dmap.contains (goWeekdayMapped (addDaysN j date)) &&
          afterNow (addDaysN j date) now) = false := by
  induction f with
  | zero => intro now dmap date s h; exact absurd h (by simp [wLoop])
  | succ f ih =>
    intro now dmap date s h
    unfold wLoop at h
    by_cases hc : (dmap.contains (goWeekdayMapped (addDate date 0 0 1)) &&
        afterNow (addDate date 0 0 1) now) = true
    · rw [if_pos hc] at h
      injection h with h
      injection h with h
      refine ⟨1, le_refl 1, h.symm, hc, ?_⟩
      intro j hj1 hj2
      omega
    · rw [if_neg hc] at h
      obtain ⟨k, hk1, hs, hcond, hmin⟩ := ih now dmap (addDate date 0 0 1) s h
      refine ⟨k + 1, by omega, hs, hcond, ?_⟩
      intro j hj1 hjk
      cases j with
      | zero => omega
      | succ j' =>
        cases j' with
        | zero =>
          simp only [Bool.not_eq_true] at hc
          exact hc
        | succ j'' => exact hmin (j'' + 1) (by omega) (by omega)

/-! ## The zero-interval loop makes no progress -/

theorem dLoop_zero (f : Nat) (now date : Date) (hv : ValidDate date)
    (h : afterNow date now = false) : dLoop f now 0 date = none := by
  induction f with
  | zero => rfl
  | succ f ih =>
    unfold dLoop
    dsimp only
    rw [addDate_zero date hv]
    rw [if_neg (by rw [h]; exact Bool.false_ne_true)]
    exact ih

/-! ## The last day of a month: bounds used by the month scan -/

theorem daysInMonth_ge (y m : Int) : 28 ≤ daysInMonth y m := by
  unfold daysInMonth
  repeat' split
  all_goals omega

theorem daysInMonth_le (y m : Int) : daysInMonth y m ≤ 31 := by
  unfold daysInMonth
  repeat' split
  all_goals omega

theorem daysInMonth_bounds (y m : Int) :
    28 ≤ daysInMonth y m ∧ daysInMonth y m ≤ 31 :=
  ⟨daysInMonth_ge y m, daysInMonth_le y m⟩

theorem rollUpF_one_day_zero (y m : Int) :
    rollUpF 1 y m 0 = if m = 1 then ⟨y - 1, 12, daysInMonth (y - 1) 12⟩
      else (⟨y, m - 1, daysInMonth y (m - 1)⟩ : Date) := by
  by_cases h : m = 1
  · subst h
    simp [rollUpF, daysInMonth]
  · have hb := (daysInMonth_bounds y (m - 1)).1
    simp only [rollUpF, if_neg h, zero_add]
    rw [if_pos (by omega : 1 ≤ daysInMonth y (m - 1))]

theorem lastDayOfMonth_spec (t : Date) : ∃ py pm, 1 ≤ pm ∧ pm ≤ 12 ∧
    lastDayOfMonth t = ⟨py, pm, daysInMonth py pm⟩ := by
  unfold lastDayOfMonth goDate
  rw [if_pos (by omega : (0 : Int) < 1)]
  show ∃ py pm, 1 ≤ pm ∧ pm ≤ 12 ∧
    rollUpF 1 (t.year + (t.month + 1 - 1) / 12) ((t.month + 1 - 1) % 12 + 1) 0
      = ⟨py, pm, daysInMonth py pm⟩
  rw [rollUpF_one_day_zero]
  by_cases h : (t.month + 1 - 1) % 12 + 1 = 1
  · rw [if_pos h]
    exact ⟨_, 12, by omega, by omega, rfl⟩
  · rw [if_neg h]
    exact ⟨_, (t.month + 1 - 1) % 12 + 1 - 1, by omega, by omega, rfl⟩

theorem lastDayOfMonth_feb (t : Date) (h : t.month = 2) :
    lastDayOfMonth t = ⟨t.year, 2, if goIsLeap t.year then 29 else 28⟩ := by
  unfold lastDayOfMonth goDate
  rw [h]
  rw [if_pos (by omega : (0 : Int) < 1)]
  show rollUpF 1 (t.year + (2 + 1 - 1) / 12) ((2 + 1 - 1) % 12 + 1) 0 = _
  norm_num
  rw [rollUpF_one_day_zero]
  rw [if_neg (by omega : ¬ (3 : Int) = 1)]
  unfold daysInMonth
  norm_num

/-! ## A monthly rule whose day values exceed every admissible month's
length makes the month scan run forever -/

theorem scanDays_feb30_none (now date : Date) (hm : date.month = 2) :
    scanDays now date [30] = none := by
  unfold scanDays
  rw [if_neg (by omega : ¬ (30 : Int) = -1),
    if_neg (by omega : ¬ (30 : Int) = -2)]
  dsimp only
  rw [lastDayOfMonth_feb date hm]
  dsimp only
  have hgt : (30 : Int) > (if goIsLeap date.year then (29 : Int) else 28) := by
    split_ifs <;> omega
  rw [if_pos hgt]
  rfl

theorem monthLoop_feb30_none (f : Nat) : ∀ (now date : Date),
    monthLoop f now [2] [30] date = none := by
  induction f with
  | zero => intro now date; rfl
  | succ f ih =>
    intro now date
    unfold monthLoop
    by_cases hc : ([2] : List Int).contains date.month = true
    · rw [if_pos hc]
      have hm : date.month = 2 := by
        simp [List.contains] at hc
        omega
      rw [scanDays_feb30_none now date hm]
      exact ih now _
    · rw [if_neg hc]
      exact ih now _

theorem scanDays_32_none (now date : Date) : scanDays now date [32] = none := by
  obtain ⟨py, pm, h1, h2, heq⟩ := lastDayOfMonth_spec date
  unfold scanDays
  rw [if_neg (by omega : ¬ (32 : Int) = -1),
    if_neg (by omega : ¬ (32 : Int) = -2)]
  dsimp only
  rw [heq]
  dsimp only
  have hgt : (32 : Int) > daysInMonth py pm := by
    have := (daysInMonth_bounds py pm).2
    omega
  rw [if_pos hgt]
  rfl

theorem monthLoop_32_none (f : Nat) : ∀ (now : Date) (monthMap : List Int)
    (date : Date), monthLoop f now monthMap [32] date = none := by
  induction f with
  | zero => intro now monthMap date; rfl
  | succ f ih =>
    intro now monthMap date
    unfold monthLoop
    by_cases hc : monthMap.contains date.month = true
    · rw [if_pos hc]
      rw [scanDays_32_none now date]
      exact ih now monthMap _
    · rw [if_neg hc]
      exact ih now monthMap _

/-! ## The day-list ordering: `arrangeSpecialDays` is a three-way stable
partition, so sorting then arranging is exactly the spec's ordering -/

theorem arrange_foldl_eq (days : List Int) : ∀ (r t o : List Int),
    days.foldl
      (fun (acc : List Int × List Int × List Int) day =>
        if day = -2 then (acc.1, acc.2.1 ++ [day], acc.2.2)
        else if day = -1 then (acc.1, acc.2.1, acc.2.2 ++ [day])
        else (acc.1 ++ [day], acc.2.1, acc.2.2))
      (r, t, o)
    = (r ++ days.filter (fun d => !(d == -2) && !(d == -1)),
       t ++ days.filter (fun d => d == -2),
       o ++ days.filter (fun d => d == -1)) := by
  induction days with
  | nil =>
    intro r t o
    simp
  | cons day rest ih =>
    intro r t o
    rw [List.foldl_cons]
    by_cases h2 : day = -2
    · subst h2
      rw [if_pos rfl, ih]
      simp [List.filter_cons]
    · by_cases h1 : day = -1
      · subst h1
        rw [if_neg (by omega), if_pos rfl, ih]
        simp [List.filter_cons]
      · rw [if_neg h2, if_neg h1, ih]
        simp [List.filter_cons, h1, h2]

theorem arrangeSpecialDays_eq (days : List Int) :
    arrangeSpecialDays days
      = days.filter (fun d => !(d == -2) && !(d == -1))
        ++ days.filter (fun d => d == -2)
        ++ days.filter (fun d => d == -1) := by
  unfold arrangeSpecialDays
  rw [arrange_foldl_eq]
  simp

theorem stringsToInts_mem (strs : List (List Char)) : ∀ (vals : List Int),
    stringsToInts strs = some vals → ∀ v ∈ vals, -2 ≤ v ∧ v ≤ 32 ∧ v ≠ 0 := by
  induction strs with
  | nil =>
    intro vals h v hv
    unfold stringsToInts at h
    injection h with h
    subst h
    simp at hv
  | cons s rest ih =>
    intro vals h v hv
    unfold stringsToInts at h
    cases ha : atoi s with
    | none =>
      rw [ha] at h
      exact absurd h (by simp)
    | some num =>
      rw [ha] at h
      dsimp only at h
      by_cases hc : num < -2 ∨ num > 32 ∨ num = 0
      · rw [if_pos hc] at h
        exact absurd h (by simp)
      · rw [if_neg hc] at h
        cases htl : stringsToInts rest with
        | none =>
          rw [htl] at h
          exact absurd h (by simp)
        | some tl =>
          rw [htl] at h
          injection h with h
          subst h
          rcases List.mem_cons.mp hv with rfl | hv'
          · omega
          · exact ih tl htl v hv'

/-! ## The claims -/

/-- Claim C1: for every non-empty rule string and every start string,
whatever date string `NextDate` returns is the `YYYYMMDD` rendering of a
calendar date strictly after `now`; a date equal to or before `now` is never
returned (every success of the engine's loops is guarded by the strict
`afterNow` check). -/
theorem C1_nextDate_strict_future (fuel : Nat) (now : Date)
    (dstart rep s : List Char) (hrep : rep ≠ [])
    (h : NextDate fuel now dstart rep = some (NDResult.ok s)) :
    ∃ d, s = formatDate d ∧ afterNow d now = true := by
  unfold NextDate at h
  rw [if_neg hrep] at h
  cases hp : parseDate dstart with
  | none =>
    rw [hp] at h
    exact absurd h (by simp)
  | some date =>
    rw [hp] at h
    exact nextDateRule_ok fuel now date _ s h

/-- Witness for C1: rule `"y"`, start 2024-01-01, now 2024-06-01 return the
string `20250101`, the rendering of a date strictly after now. -/
theorem C1_witness :
    ∃ d, "20250101".data = formatDate d ∧ afterNow d ⟨2024, 6, 1⟩ = true :=
  C1_nextDate_strict_future 5 ⟨2024, 6, 1⟩ "20240101".data "y".data
    "20250101".data (by decide) (by decide)

/-- Claim C2 counterexample: with rule `"m -1"`, start 2024-01-15 and now
2024-01-20, `NextDate` does not return 2024-01-31: since the start date is
not strictly after now, `findMonthDay` fast-forwards to 2024-02-01 before
scanning, so January 31st is never considered. -/
theorem C2_counterexample :
    ¬ Returns ⟨2024, 1, 20⟩ "20240115".data "m -1".data
      (NDResult.ok "20240131".data) := by
  rintro ⟨fuel, h⟩
  have h5 : NextDate 5 ⟨2024, 1, 20⟩ "20240115".data "m -1".data
      = some (NDResult.ok "20240229".data) := by decide
  have he := NextDate_det ⟨2024, 1, 20⟩ "20240115".data "m -1".data
    (NDResult.ok "20240131".data) (NDResult.ok "20240229".data)
    ⟨fuel, h⟩ ⟨5, h5⟩
  exact absurd he (by decide)

/-- Claim C2 amended: with rule `"m -1"`, start 2024-01-15 and now
2024-01-20, `NextDate` returns 2024-02-29 (the scan fast-forwards past
January because start is not after now); and with now = 2024-01-31 it
likewise returns 2024-02-29 (leap year). -/
theorem C2_amended :
    Returns ⟨2024, 1, 20⟩ "20240115".data "m -1".data
      (NDResult.ok "20240229".data)
    ∧ Returns ⟨2024, 1, 31⟩ "20240115".data "m -1".data
      (NDResult.ok "20240229".data) :=
  ⟨⟨5, by decide⟩, ⟨5, by decide⟩⟩

/-- Claim C3: the `"d N"` bound check only rejects negative values and
values above 400, so `"d 0"` is accepted without a format error; with
interval 0 the advance loop never moves the running date, so whenever the
start date is not strictly after now, `NextDate` never terminates (it
yields `none` at every fuel, never an error and never a date).  Negative
and too-large intervals are rejected. -/
theorem C3_d_zero_accepted_diverges :
    (∀ (fuel : Nat) (now : Date) (dstart : List Char) (date : Date),
        parseDate dstart = some date → afterNow date now = false →
        NextDate fuel now dstart "d 0".data = none)
    ∧ Returns ⟨2024, 1, 1⟩ "20240101".data "d -1".data NDResult.err
    ∧ Returns ⟨2024, 1, 1⟩ "20240101".data "d 401".data NDResult.err := by
  refine ⟨?_, ⟨1, by decide⟩, ⟨1, by decide⟩⟩
  intro fuel now dstart date hp hafter
  have h1 : NextDate fuel now dstart "d 0".data
      = match parseDate dstart with
        | none => some NDResult.err
        | some date => dLoop fuel now 0 date := rfl
  rw [h1, hp]
  exact dLoop_zero fuel now date (parseDate_valid dstart date hp) hafter

/-- Witness for C3: start 2024-01-15 equal to now, rule `"d 0"`: no fuel
suffices, the loop runs forever. -/
theorem C3_witness :
    NextDate 5 ⟨2024, 1, 15⟩ "20240115".data "d 0".data = none :=
  C3_d_zero_accepted_diverges.1 5 ⟨2024, 1, 15⟩ "20240115".data
    ⟨2024, 1, 15⟩ (by decide) (by decide)

/-- Claim C4 (the code against its own documentation): `stringsToInts`
accepts the day value 32 (its check is `num > 32`, not `num > 31`), so the
rule `"m 32"` is not rejected with a format error — instead the month scan
never finds day 32 in any month and runs forever.  The values 0 and -3 are
rejected as the claim states, and 33 is where the upper rejection actually
begins. -/
theorem C4_bound_check_admits_32 :
    stringsToInts [['3', '2']] = some [32]
    ∧ stringsToInts [['3', '3']] = none
    ∧ Returns ⟨2024, 1, 20⟩ "20240115".data "m 0".data NDResult.err
    ∧ Returns ⟨2024, 1, 20⟩ "20240115".data "m -3".data NDResult.err
    ∧ (∀ (fuel : Nat) (now : Date) (dstart : List Char) (date : Date),
        parseDate dstart = some date →
        NextDate fuel now dstart "m 32".data = none) := by
  refine ⟨by decide, by decide, ⟨1, by decide⟩, ⟨1, by decide⟩, ?_⟩
  intro fuel now dstart date hp
  have h1 : NextDate fuel now dstart "m 32".data
      = match parseDate dstart with
        | none => some NDResult.err
        | some date =>
          monthLoop fuel now [1, 2, 3, 4, 5, 6, 7, 8, 9, 10, 11, 12] [32]
            (if afterNow date now = true then date
             else addDate (goDate date.year date.month 1) 0 1 0) := rfl
  rw [h1, hp]
  exact monthLoop_32_none fuel now _ _

/-- Witness for C4: `"m 32"` is accepted and diverges at the concrete
input start 2024-01-15, now 2024-01-20. -/
theorem C4_witness :
    NextDate 4 ⟨2024, 1, 20⟩ "20240115".data "m 32".data = none :=
  C4_bound_check_admits_32.2.2.2.2 4 ⟨2024, 1, 20⟩ "20240115".data
    ⟨2024, 1, 15⟩ (by decide)

/-- Claim C5: an empty repeat rule returns the empty marker with no error,
for every now and every start string, well-formed or not: the check
`repeat == ""` precedes the parsing of the start date. -/
theorem C5_noRepeat_empty_marker (fuel : Nat) (now : Date)
    (dstart : List Char) :
    NextDate fuel now dstart "".data = some (NDResult.ok "".data) := rfl

/-- Claim C6: for every valid monthly day list, the sequence `parseDays`
hands to the month scan is the parsed values sorted ascending and then
rearranged so that every -2 and every -1 comes after all the positive day
numbers, the -2s before the -1s; the sort is a genuine ascending sort
(sorted and a permutation of the values). -/
theorem C6_parseDays_spec_order (s : List Char) (days : List Int)
    (h : parseDays s = some days) :
    ∃ vals, stringsToInts (List.splitOn ',' s) = some vals ∧
      days = specDaysOrder vals ∧
      List.Sorted (· ≤ ·) (sortInts vals) ∧ (sortInts vals).Perm vals := by
  unfold parseDays at h
  cases hvals : stringsToInts (List.splitOn ',' s) with
  | none =>
    rw [hvals] at h
    exact absurd h (by simp)
  | some vals =>
    rw [hvals] at h
    dsimp only at h
    injection h with h
    subst h
    refine ⟨vals, rfl, ?_, List.sorted_insertionSort _ _,
      List.perm_insertionSort _ _⟩
    rw [arrangeSpecialDays_eq]
    unfold specDaysOrder
    dsimp only
    have hmem : ∀ v ∈ sortInts vals, -2 ≤ v ∧ v ≤ 32 ∧ v ≠ 0 := fun v hv =>
      stringsToInts_mem _ vals hvals v
        ((List.perm_insertionSort _ _).mem_iff.mp hv)
    have hfil : (sortInts vals).filter (fun d => !(d == -2) && !(d == -1))
        = (sortInts vals).filter (fun d => decide (0 < d)) := by
      apply List.filter_congr
      intro v hv
      have hb := hmem v hv
      rcases (by omega : v = -2 ∨ v = -1 ∨ 0 < v) with rfl | rfl | hpos
      · decide
      · decide
      · have e1 : (v == -2) = false := beq_eq_false_iff_ne.mpr (by omega)
        have e2 : (v == -1) = false := beq_eq_false_iff_ne.mpr (by omega)
        rw [e1, e2]
        exact (decide_eq_true hpos).symm
    rw [hfil]

/-- Witness for C6: the list `15,-1,3,-2` is parsed, sorted and arranged to
`[3, 15, -2, -1]`, exactly the spec ordering of its values. -/
theorem C6_witness :
    ∃ vals, stringsToInts (List.splitOn ',' "15,-1,3,-2".data) = some vals ∧
      [3, 15, -2, -1] = specDaysOrder vals ∧
      List.Sorted (· ≤ ·) (sortInts vals) ∧ (sortInts vals).Perm vals :=
  C6_parseDays_spec_order "15,-1,3,-2".data [3, 15, -2, -1] (by decide)

/-- Claim C7: for the yearly rule, `NextDate` returns exactly the first
iterate of one-calendar-year addition (with civil rollover) that is
strictly after now — no earlier positive iterate passes the check; and in
particular start 2024-02-29, now 2024-03-01 yield 2025-03-01 (Feb 29 plus
one year normalises to Mar 1). -/
theorem C7_yearly_adds_whole_years :
    (∀ (fuel : Nat) (now : Date) (dstart : List Char) (date : Date)
        (s : List Char), parseDate dstart = some date →
        NextDate fuel now dstart "y".data = some (NDResult.ok s) →
        ∃ k, 1 ≤ k ∧ s = formatDate (addYears k date) ∧
          afterNow (addYears k date) now = true ∧
          ∀ j, 1 ≤ j → j < k → afterNow (addYears j date) now = false)
    ∧ Returns ⟨2024, 3, 1⟩ "20240229".data "y".data
        (NDResult.ok "20250301".data) := by
  refine ⟨?_, ⟨5, by decide⟩⟩
  intro fuel now dstart date s hp h
  have h1 : NextDate fuel now dstart "y".data
      = match parseDate dstart with
        | none => some NDResult.err
        | some date => yearlyLoop fuel now date := rfl
  rw [h1, hp] at h
  exact yearlyLoop_char fuel now date s h

/-- Witness for C7: the leap-day example instantiated — `20250301` is the
first one-year iterate of 2024-02-29 strictly after 2024-03-01. -/
theorem C7_witness :
    ∃ k, 1 ≤ k ∧ "20250301".data = formatDate (addYears k ⟨2024, 2, 29⟩) ∧
      afterNow (addYears k ⟨2024, 2, 29⟩) ⟨2024, 3, 1⟩ = true ∧
      ∀ j, 1 ≤ j → j < k →
        afterNow (addYears j ⟨2024, 2, 29⟩) ⟨2024, 3, 1⟩ = false :=
  C7_yearly_adds_whole_years.1 5 ⟨2024, 3, 1⟩ "20240229".data
    ⟨2024, 2, 29⟩ "20250301".data (by decide) (by decide)

/-- Claim C8: for the weekly rule, `NextDate` advances one day at a time
from start and returns the first date whose mapped weekday (Monday = 1 …
Sunday = 7) lies in the parsed day set and which is strictly after now —
no earlier candidate passes; and in particular start 2024-01-01 (a Monday),
rule `"w 1,3"`, now 2024-01-01 yield 2024-01-03. -/
theorem C8_weekly_first_matching_day :
    (∀ (fuel : Nat) (now : Date) (dstart rep : List Char) (date : Date)
        (dStr : List Char) (dmap : List Int) (s : List Char),
        List.splitOn ' ' rep = [['w'], dStr] →
        parseDate dstart = some date →
        parseWeek dStr = some dmap →
        NextDate fuel now dstart rep = some (NDResult.ok s) →
        ∃ k, 1 ≤ k ∧ s = formatDate (addDaysN k date) ∧
          (dmap.contains (goWeekdayMapped (addDaysN k date)) &&
            afterNow (addDaysN k date) now) = true ∧
          ∀ j, 1 ≤ j → j < k →
            (dmap.contains (goWeekdayMapped (addDaysN j date)) &&
              afterNow (addDaysN j date) now) = false)
    ∧ Returns ⟨2024, 1, 1⟩ "20240101".data "w 1,3".data
        (NDResult.ok "20240103".data) := by
  refine ⟨?_, ⟨5, by decide⟩⟩
  intro fuel now dstart rep date dStr dmap s hsplit hp hweek h
  have hrep : rep ≠ [] := by
    intro he
    rw [he] at hsplit
    have he2 : List.splitOn ' ' ([] : List Char) = [[]] := rfl
    rw [he2] at hsplit
    simp at hsplit
  unfold NextDate at h
  rw [if_neg hrep, hp] at h
  dsimp only at h
  rw [hsplit] at h
  have h2 : nextDateRule fuel now date [['w'], dStr]
      = match parseWeek dStr with
        | none => some NDResult.err
        | some dmap => wLoop fuel now dmap date := rfl
  rw [h2, hweek] at h
  exact wLoop_char fuel now dmap date s h

/-- Witness for C8: the Monday/Wednesday example instantiated — `20240103`
is the first day after 2024-01-01 whose weekday is in `{1, 3}` and which is
strictly after now. -/
theorem C8_witness :
    ∃ k, 1 ≤ k ∧ "20240103".data = formatDate (addDaysN k ⟨2024, 1, 1⟩) ∧
      (([1, 3] : List Int).contains
          (goWeekdayMapped (addDaysN k ⟨2024, 1, 1⟩)) &&
        afterNow (addDaysN k ⟨2024, 1, 1⟩) ⟨2024, 1, 1⟩) = true ∧
      ∀ j, 1 ≤ j → j < k →
        (([1, 3] : List Int).contains
            (goWeekdayMapped (addDaysN j ⟨2024, 1, 1⟩)) &&
          afterNow (addDaysN j ⟨2024, 1, 1⟩) ⟨2024, 1, 1⟩) = false :=
  C8_weekly_first_matching_day.1 5 ⟨2024, 1, 1⟩ "20240101".data
    "w 1,3".data ⟨2024, 1, 1⟩ "1,3".data [1, 3] "20240103".data
    (by decide) (by decide) (by decide) (by decide)

/-- Claim C9: the rule `"m 30 2"` (day 30, months restricted to February)
is syntactically accepted — both token lists parse — yet for every valid
start date `NextDate` never returns: February never has a 30th day, every
other month is filtered out, and the month scan runs forever (`none` at
every fuel, never a date and never an error). -/
theorem C9_monthly_unreachable_day :
    parseDays "30".data = some [30]
    ∧ parseMonth ["2".data] = some [2]
    ∧ (∀ (fuel : Nat) (now : Date) (dstart : List Char) (date : Date),
        parseDate dstart = some date →
        NextDate fuel now dstart "m 30 2".data = none) := by
  refine ⟨by decide, by decide, ?_⟩
  intro fuel now dstart date hp
  have h1 : NextDate fuel now dstart "m 30 2".data
      = match parseDate dstart with
        | none => some NDResult.err
        | some date =>
          monthLoop fuel now [2] [30]
            (if afterNow date now = true then date
             else addDate (goDate date.year date.month 1) 0 1 0) := rfl
  rw [h1, hp]
  exact monthLoop_feb30_none fuel now _

/-- Witness for C9: start 2024-01-15 with rule `"m 30 2"` makes no
progress with fuel 3 (and, by the theorem, with any fuel). -/
theorem C9_witness :
    NextDate 3 ⟨2024, 1, 1⟩ "20240115".data "m 30 2".data = none :=
  C9_monthly_unreachable_day.2.2 3 ⟨2024, 1, 1⟩ "20240115".data
    ⟨2024, 1, 15⟩ (by decide)

/-- Claim C10: trailing extra tokens never cause an error — the dispatch
reads only the tokens each keyword needs, so `"y"` with any extra tokens
behaves exactly like `"y"`, `"d N extra…"` like `"d N"`, `"w D extra…"`
like `"w D"`, and any tokens after the month-list token of an `"m"` rule
are ignored. -/
theorem C10_trailing_tokens_ignored (fuel : Nat) (now date : Date)
    (rest : List (List Char)) (nStr wStr dStr mStr : List Char) :
    nextDateRule fuel now date (['y'] :: rest)
      = nextDateRule fuel now date [['y']]
    ∧ nextDateRule fuel now date (['d'] :: nStr :: rest)
      = nextDateRule fuel now date [['d'], nStr]
    ∧ nextDateRule fuel now date (['w'] :: wStr :: rest)
      = nextDateRule fuel now date [['w'], wStr]
    ∧ nextDateRule fuel now date (['m'] :: dStr :: mStr :: rest)
      = nextDateRule fuel now date [['m'], dStr, mStr] :=
  ⟨rfl, rfl, rfl, rfl⟩
